import Mathlib

/-!
# Verification of the greedy maximum-cover engine

Shallow embedding of `beacon_node/operation_pool/src/max_cover.rs`:
the `MaxCover` trait becomes a bundled record of operations, the
`maximum_cover` greedy loop becomes a recursion over the round budget,
and `merge_solutions` becomes a two-list merge followed by `take` and a
conversion map.  The metrics gauge update is a side channel with no
influence on the algorithm and is not modelled.
-/

namespace MaxCoverSpec

/-- The operations required of a cover item type, mirroring the
`MaxCover` trait: intermediate extraction, object conversion, the
covering set, the covering-set update and the score. -/
structure MaxCover (T Inter SetT Obj : Type) where
  intermediate : T → Inter
  convert_to_object : Inter → Obj
  covering_set : T → SetT
  update_covering_set : T → Inter → SetT → T
  score : T → Nat

/-- Internal entry pairing an item with its availability flag,
mirroring `struct MaxCoverItem`. -/
structure MaxCoverItem (T : Type) where
  item : T
  available : Bool

variable {T Inter SetT Obj : Type}

/-- The fold performed by `max_by_key` over
`all_items.iter_mut().filter(|x| x.available && x.item.score() != 0)`,
tracking the index of the current maximum.  Rust's `max_by_key` keeps
the LAST element among several equally-maximum ones, hence the `≤` in
the replacement test. -/
def findBestAux (mc : MaxCover T Inter SetT Obj) :
    List (MaxCoverItem T) → Nat → Option (Nat × T) → Option (Nat × T)
  | [], _, acc => acc
  | e :: rest, idx, acc =>
    let acc' :=
      if e.available = true ∧ mc.score e.item ≠ 0 then
        match acc with
        | none => some (idx, e.item)
        | some p => if mc.score p.2 ≤ mc.score e.item then some (idx, e.item) else some p
      else acc
    findBestAux mc rest (idx + 1) acc'

/-- Select the maximal-score entry among available non-zero-score
entries, returning its index and (a clone of) its item. -/
def findBest (mc : MaxCover T Inter SetT Obj) (all : List (MaxCoverItem T)) :
    Option (Nat × T) :=
  findBestAux mc all 0 none

/-- Mark the entry at index `i` unavailable (the `x.available = false`
assignment inside the successful `max_by_key` match). -/
def markUnavailable : List (MaxCoverItem T) → Nat → List (MaxCoverItem T)
  | [], _ => []
  | e :: rest, 0 => { item := e.item, available := false } :: rest
  | e :: rest, n + 1 => e :: markUnavailable rest n

/-- The update pass: every entry still available and of non-zero score
has `update_covering_set` applied with the selected item's intermediate
representation and covering set; all other entries are untouched. -/
def updatePass (mc : MaxCover T Inter SetT Obj) (best : T)
    (all : List (MaxCoverItem T)) : List (MaxCoverItem T) :=
  all.map fun e =>
    if e.available = true ∧ mc.score e.item ≠ 0 then
      { item := mc.update_covering_set e.item (mc.intermediate best) (mc.covering_set best),
        available := e.available }
    else e

/-- The `for _ in 0..limit` loop of `maximum_cover`: each round selects
the best entry, marks it unavailable, updates the remaining entries and
pushes the pre-update clone; an unsuccessful selection returns the
accumulated result early. -/
def maxCoverLoop (mc : MaxCover T Inter SetT Obj) :
    List (MaxCoverItem T) → Nat → List T
  | _, 0 => []
  | all, n + 1 =>
    match findBest mc all with
    | none => []
    | some (i, best) =>
      best :: maxCoverLoop mc (updatePass mc best (markUnavailable all i)) n

/-- `maximum_cover`: materialize the items into available entries,
discard zero-score items, then run up to `limit` greedy rounds. -/
def maximum_cover (mc : MaxCover T Inter SetT Obj) (items : List T) (limit : Nat) :
    List T :=
  maxCoverLoop mc
    ((items.map fun x => { item := x, available := true }).filter
      fun e => mc.score e.item != 0)
    limit

/-- `itertools`' `merge_by`: take the head of the first list whenever
the predicate holds of the two current heads. -/
def mergeBy (pred : T → T → Bool) : List T → List T → List T
  | [], ys => ys
  | x :: xs, [] => x :: xs
  | x :: xs, y :: ys =>
    if pred x y then x :: mergeBy pred xs (y :: ys)
    else y :: mergeBy pred (x :: xs) ys
termination_by xs ys => xs.length + ys.length

/-- `merge_solutions`: merge two solutions preferring the first
sequence on `score() >= score()`, truncate to `limit`, and convert the
survivors to objects. -/
def merge_solutions (mc : MaxCover T Inter SetT Obj) (cover1 cover2 : List T)
    (limit : Nat) : List Obj :=
  ((mergeBy (fun item1 item2 => decide (mc.score item2 ≤ mc.score item1))
      cover1 cover2).take limit).map
    fun item => mc.convert_to_object (mc.intermediate item)

/-- The `impl MaxCover for HashSet<T>` of the test module, at element
type `ℕ`: intermediate, covering set and object are the set itself,
the update is set difference, and the score is the cardinality. -/
def setInstance : MaxCover (Finset ℕ) (Finset ℕ) (Finset ℕ) (Finset ℕ) where
  intermediate := id
  convert_to_object := id
  covering_set := id
  update_covering_set := fun s _ other => s \ other
  score := Finset.card

/-- The `example_system` input of the test module. -/
def example_system : List (Finset ℕ) :=
  [{3}, {1, 2, 4, 5}, {1, 2, 4, 5}, {1}, {2, 4, 5}]

/-- The input of the `suboptimal` test. -/
def suboptimalSets : List (Finset ℕ) :=
  [{0, 1, 8, 11, 14}, {2, 3, 7, 9, 10}, {4, 5, 6, 12, 13},
   {9, 10}, {5, 6, 7, 8}, {0, 1, 2, 3, 4}]

/-- The `quality` helper of the test module: total coverage of a
solution, as the sum of the sets' cardinalities. -/
def quality (solution : List (Finset ℕ)) : Nat :=
  (solution.map Finset.card).sum

/-! ## Characterization of the selection scan -/

lemma findBestAux_cons_none (mc : MaxCover T Inter SetT Obj) (e₀ : MaxCoverItem T)
    (rest : List (MaxCoverItem T)) (idx : Nat) :
    findBestAux mc (e₀ :: rest) idx none =
      findBestAux mc rest (idx + 1)
        (if e₀.available = true ∧ mc.score e₀.item ≠ 0 then
          some (idx, e₀.item)
        else none) := rfl

lemma findBestAux_cons_some (mc : MaxCover T Inter SetT Obj) (e₀ : MaxCoverItem T)
    (rest : List (MaxCoverItem T)) (idx : Nat) (p : Nat × T) :
    findBestAux mc (e₀ :: rest) idx (some p) =
      findBestAux mc rest (idx + 1)
        (if e₀.available = true ∧ mc.score e₀.item ≠ 0 then
          if mc.score p.2 ≤ mc.score e₀.item then some (idx, e₀.item) else some p
        else some p) := rfl

lemma findBestAux_grow (mc : MaxCover T Inter SetT Obj) :
    ∀ (l : List (MaxCoverItem T)) (idx : Nat) (p : Nat × T),
      ∃ q, findBestAux mc l idx (some p) = some q ∧
        (q = p ∨ idx ≤ q.1) ∧ mc.score p.2 ≤ mc.score q.2 := by
  intro l
  induction l with
  | nil => exact fun idx p => ⟨p, rfl, Or.inl rfl, le_refl _⟩
  | cons e rest ih =>
    intro idx p
    rw [findBestAux_cons_some]
    by_cases he : e.available = true ∧ mc.score e.item ≠ 0
    · rw [if_pos he]
      by_cases hsc : mc.score p.2 ≤ mc.score e.item
      · rw [if_pos hsc]
        obtain ⟨q, hq, hq1, hq2⟩ := ih (idx + 1) (idx, e.item)
        refine ⟨q, hq, ?_, le_trans hsc hq2⟩
        rcases hq1 with h | h
        · right; rw [h]
        · right; omega
      · rw [if_neg hsc]
        obtain ⟨q, hq, hq1, hq2⟩ := ih (idx + 1) p
        refine ⟨q, hq, ?_, hq2⟩
        rcases hq1 with h | h
        · exact Or.inl h
        · right; omega
    · rw [if_neg he]
      obtain ⟨q, hq, hq1, hq2⟩ := ih (idx + 1) p
      refine ⟨q, hq, ?_, hq2⟩
      rcases hq1 with h | h
      · exact Or.inl h
      · right; omega

lemma findBestAux_max (mc : MaxCover T Inter SetT Obj) :
    ∀ (l : List (MaxCoverItem T)) (idx : Nat) (acc : Option (Nat × T)) (i : Nat) (b : T),
      findBestAux mc l idx acc = some (i, b) →
      ∀ (k : Nat) (e : MaxCoverItem T), l[k]? = some e → e.available = true →
        mc.score e.item ≠ 0 → mc.score e.item ≤ mc.score b := by
  intro l
  induction l with
  | nil => intro idx acc i b _ k e hk; simp at hk
  | cons e₀ rest ih =>
    intro idx acc i b h k e hk hav hsc
    cases k with
    | zero =>
      simp only [List.getElem?_cons_zero, Option.some_inj] at hk
      subst hk
      -- after processing the head, the accumulator's score is at least its score
      have hstep : ∃ p' : Nat × T, findBestAux mc (e₀ :: rest) idx acc =
          findBestAux mc rest (idx + 1) (some p') ∧
          mc.score e₀.item ≤ mc.score p'.2 := by
        cases acc with
        | none =>
          exact ⟨(idx, e₀.item),
            by rw [findBestAux_cons_none, if_pos ⟨hav, hsc⟩], le_refl _⟩
        | some p =>
          by_cases hsc' : mc.score p.2 ≤ mc.score e₀.item
          · exact ⟨(idx, e₀.item),
              by rw [findBestAux_cons_some, if_pos ⟨hav, hsc⟩, if_pos hsc'], le_refl _⟩
          · exact ⟨p,
              by rw [findBestAux_cons_some, if_pos ⟨hav, hsc⟩, if_neg hsc'],
              le_of_not_le hsc'⟩
      obtain ⟨p', hp', hple⟩ := hstep
      rw [hp'] at h
      obtain ⟨q, hq, _, hq2⟩ := findBestAux_grow mc rest (idx + 1) p'
      rw [hq] at h
      cases h
      exact le_trans hple hq2
    | succ k =>
      simp only [List.getElem?_cons_succ] at hk
      -- one step of the scan, whatever it does to the accumulator
      have hstep : ∃ acc', findBestAux mc (e₀ :: rest) idx acc =
          findBestAux mc rest (idx + 1) acc' := by
        cases acc with
        | none => exact ⟨_, findBestAux_cons_none mc e₀ rest idx⟩
        | some p => exact ⟨_, findBestAux_cons_some mc e₀ rest idx p⟩
      obtain ⟨acc', hacc'⟩ := hstep
      rw [hacc'] at h
      exact ih (idx + 1) acc' i b h k e hk hav hsc

lemma findBestAux_mem (mc : MaxCover T Inter SetT Obj) :
    ∀ (l : List (MaxCoverItem T)) (idx : Nat) (acc : Option (Nat × T)) (i : Nat) (b : T),
      findBestAux mc l idx acc = some (i, b) →
      acc = some (i, b) ∨
        ∃ (k : Nat) (e : MaxCoverItem T), l[k]? = some e ∧ i = idx + k ∧ e.item = b ∧
          e.available = true ∧ mc.score e.item ≠ 0 := by
  intro l
  induction l with
  | nil => intro idx acc i b h; exact Or.inl h
  | cons e₀ rest ih =>
    intro idx acc i b h
    have hlift : ∀ p' : Nat × T,
        findBestAux mc rest (idx + 1) (some p') = some (i, b) →
        p' = (i, b) ∨
          ∃ (k : Nat) (e : MaxCoverItem T), (e₀ :: rest)[k]? = some e ∧ i = idx + k ∧
            e.item = b ∧ e.available = true ∧ mc.score e.item ≠ 0 := by
      intro p' hp'
      rcases ih (idx + 1) (some p') i b hp' with hl | ⟨k, e, hk, hik, hb, hav, hsc⟩
      · exact Or.inl (Option.some_inj.mp hl)
      · exact Or.inr ⟨k + 1, e, by simpa using hk, by omega, hb, hav, hsc⟩
    by_cases he₀ : e₀.available = true ∧ mc.score e₀.item ≠ 0
    · cases acc with
      | none =>
        rw [findBestAux_cons_none, if_pos he₀] at h
        rcases hlift _ h with hl | hr
        · have h1 : idx = i := congrArg Prod.fst hl
          have h2 : e₀.item = b := congrArg Prod.snd hl
          exact Or.inr ⟨0, e₀, by simp, by omega, h2, he₀.1, he₀.2⟩
        · exact Or.inr hr
      | some p =>
        rw [findBestAux_cons_some, if_pos he₀] at h
        by_cases hsc' : mc.score p.2 ≤ mc.score e₀.item
        · rw [if_pos hsc'] at h
          rcases hlift _ h with hl | hr
          · have h1 : idx = i := congrArg Prod.fst hl
            have h2 : e₀.item = b := congrArg Prod.snd hl
            exact Or.inr ⟨0, e₀, by simp, by omega, h2, he₀.1, he₀.2⟩
          · exact Or.inr hr
        · rw [if_neg hsc'] at h
          rcases hlift _ h with hl | hr
          · exact Or.inl (by rw [hl])
          · exact Or.inr hr
    · cases acc with
      | none =>
        rw [findBestAux_cons_none, if_neg he₀] at h
        rcases ih (idx + 1) none i b h with hl | ⟨k, e, hk, hik, hb, hav, hsc⟩
        · exact Or.inl hl
        · exact Or.inr ⟨k + 1, e, by simpa using hk, by omega, hb, hav, hsc⟩
      | some p =>
        rw [findBestAux_cons_some, if_neg he₀] at h
        rcases hlift _ h with hl | hr
        · exact Or.inl (by rw [hl])
        · exact Or.inr hr

lemma findBestAux_last (mc : MaxCover T Inter SetT Obj) :
    ∀ (l : List (MaxCoverItem T)) (idx : Nat) (acc : Option (Nat × T)) (i : Nat) (b : T),
      findBestAux mc l idx acc = some (i, b) →
      ∀ (k : Nat) (e : MaxCoverItem T), l[k]? = some e → e.available = true →
        mc.score e.item ≠ 0 → i < idx + k → mc.score e.item < mc.score b := by
  intro l
  induction l with
  | nil => intro idx acc i b _ k e hk; simp at hk
  | cons e₀ rest ih =>
    intro idx acc i b h k e hk hav hsc hlt
    cases k with
    | zero =>
      simp only [List.getElem?_cons_zero, Option.some_inj] at hk
      subst hk
      -- after processing the head, either the accumulator holds index `idx`
      -- (impossible since the final index satisfies `i < idx`), or the
      -- accumulator's score strictly exceeds the head's score
      have hidx : i < idx := by omega
      cases acc with
      | none =>
        rw [findBestAux_cons_none, if_pos ⟨hav, hsc⟩] at h
        obtain ⟨q, hq, hq1, _⟩ := findBestAux_grow mc rest (idx + 1) (idx, e₀.item)
        rw [hq] at h
        cases h
        rcases hq1 with h1 | h1
        · have : i = idx := congrArg Prod.fst h1
          omega
        · simp at h1; omega
      | some p =>
        rw [findBestAux_cons_some, if_pos ⟨hav, hsc⟩] at h
        by_cases hsc' : mc.score p.2 ≤ mc.score e₀.item
        · rw [if_pos hsc'] at h
          obtain ⟨q, hq, hq1, _⟩ := findBestAux_grow mc rest (idx + 1) (idx, e₀.item)
          rw [hq] at h
          cases h
          rcases hq1 with h1 | h1
          · have : i = idx := congrArg Prod.fst h1
            omega
          · simp at h1; omega
        · rw [if_neg hsc'] at h
          obtain ⟨q, hq, _, hq2⟩ := findBestAux_grow mc rest (idx + 1) p
          rw [hq] at h
          cases h
          exact lt_of_lt_of_le (lt_of_not_le hsc') hq2
    | succ k =>
      simp only [List.getElem?_cons_succ] at hk
      have hstep : ∃ acc', findBestAux mc (e₀ :: rest) idx acc =
          findBestAux mc rest (idx + 1) acc' := by
        cases acc with
        | none => exact ⟨_, findBestAux_cons_none mc e₀ rest idx⟩
        | some p => exact ⟨_, findBestAux_cons_some mc e₀ rest idx p⟩
      obtain ⟨acc', hacc'⟩ := hstep
      rw [hacc'] at h
      exact ih (idx + 1) acc' i b h k e hk hav hsc (by omega)

/-- A successful selection returns an available, non-zero-score entry of
the working list, together with its index. -/
lemma findBest_spec (mc : MaxCover T Inter SetT Obj) (all : List (MaxCoverItem T))
    (i : Nat) (b : T) (h : findBest mc all = some (i, b)) :
    all[i]? = some ⟨b, true⟩ ∧ mc.score b ≠ 0 := by
  rcases findBestAux_mem mc all 0 none i b h with hl | ⟨k, e, hk, hik, hb, hav, hsc⟩
  · cases hl
  · have : e = ⟨b, true⟩ := by
      cases e
      simp_all
    subst this
    refine ⟨?_, by simpa using hsc⟩
    simpa [show i = k by omega] using hk

/-- The selected entry's score dominates the score of every available
non-zero-score entry. -/
lemma findBest_max (mc : MaxCover T Inter SetT Obj) (all : List (MaxCoverItem T))
    (i : Nat) (b : T) (h : findBest mc all = some (i, b)) :
    ∀ (k : Nat) (e : MaxCoverItem T), all[k]? = some e → e.available = true →
      mc.score e.item ≠ 0 → mc.score e.item ≤ mc.score b :=
  findBestAux_max mc all 0 none i b h

/-- Every available non-zero-score entry strictly after the selected
index has strictly smaller score: ties are resolved towards the LAST
encountered entry. -/
lemma findBest_last (mc : MaxCover T Inter SetT Obj) (all : List (MaxCoverItem T))
    (i : Nat) (b : T) (h : findBest mc all = some (i, b)) :
    ∀ (k : Nat) (e : MaxCoverItem T), all[k]? = some e → e.available = true →
      mc.score e.item ≠ 0 → i < k → mc.score e.item < mc.score b := by
  intro k e hk hav hsc hik
  exact findBestAux_last mc all 0 none i b h k e hk hav hsc (by omega)

/-! ## The state transformation of one round -/

lemma markUnavailable_getElem? :
    ∀ (l : List (MaxCoverItem T)) (i j : Nat),
      (markUnavailable l i)[j]? =
        if j = i then (l[j]?).map (fun e => ⟨e.item, false⟩) else l[j]? := by
  intro l
  induction l with
  | nil => intro i j; simp [markUnavailable]
  | cons e rest ih =>
    intro i j
    cases i with
    | zero =>
      cases j with
      | zero => simp [markUnavailable]
      | succ j => simp [markUnavailable]
    | succ i =>
      cases j with
      | zero => simp [markUnavailable]
      | succ j =>
        simp only [markUnavailable, List.getElem?_cons_succ]
        rw [ih i j]
        by_cases hji : j = i
        · simp [hji]
        · rw [if_neg hji, if_neg (by omega)]

lemma markUnavailable_length (l : List (MaxCoverItem T)) (i : Nat) :
    (markUnavailable l i).length = l.length := by
  induction l generalizing i with
  | nil => simp [markUnavailable]
  | cons e rest ih =>
    cases i with
    | zero => simp [markUnavailable]
    | succ i => simp [markUnavailable, ih]

lemma updatePass_getElem? (mc : MaxCover T Inter SetT Obj) (best : T)
    (l : List (MaxCoverItem T)) (j : Nat) :
    (updatePass mc best l)[j]? =
      (l[j]?).map fun e =>
        if e.available = true ∧ mc.score e.item ≠ 0 then
          { item := mc.update_covering_set e.item (mc.intermediate best) (mc.covering_set best),
            available := e.available }
        else e := by
  simp [updatePass, List.getElem?_map]

/-- Entries of the post-round state at an index other than the selected
one: either updated (if they were available with non-zero score) or left
alone. -/
lemma roundState_getElem_ne (mc : MaxCover T Inter SetT Obj) (best : T)
    (all : List (MaxCoverItem T)) (i j : Nat) (hji : j ≠ i) :
    (updatePass mc best (markUnavailable all i))[j]? =
      (all[j]?).map fun e =>
        if e.available = true ∧ mc.score e.item ≠ 0 then
          { item := mc.update_covering_set e.item (mc.intermediate best) (mc.covering_set best),
            available := e.available }
        else e := by
  rw [updatePass_getElem?, markUnavailable_getElem?, if_neg hji]

/-- The selected entry after the round: its item is untouched (the flag
is cleared before the update pass, so `update_covering_set` is never
applied to it) and it is no longer available. -/
lemma roundState_getElem_eq (mc : MaxCover T Inter SetT Obj) (best : T)
    (all : List (MaxCoverItem T)) (i : Nat) (e : MaxCoverItem T)
    (hi : all[i]? = some e) :
    (updatePass mc best (markUnavailable all i))[i]? = some ⟨e.item, false⟩ := by
  rw [updatePass_getElem?, markUnavailable_getElem?, if_pos rfl, hi]
  simp

/-! ## Length bounds -/

/-- Number of available entries in the working list. -/
def availCount (l : List (MaxCoverItem T)) : Nat :=
  l.countP fun e => e.available

lemma availCount_updatePass (mc : MaxCover T Inter SetT Obj) (best : T)
    (l : List (MaxCoverItem T)) :
    availCount (updatePass mc best l) = availCount l := by
  unfold availCount updatePass
  rw [List.countP_map]
  refine List.countP_congr fun e _ => ?_
  by_cases he : e.available = true ∧ mc.score e.item ≠ 0
  · simp [Function.comp, he]
  · simp [Function.comp, he]

lemma availCount_markUnavailable (l : List (MaxCoverItem T)) (i : Nat)
    (e : MaxCoverItem T) (hi : l[i]? = some e) (hav : e.available = true) :
    availCount (markUnavailable l i) + 1 = availCount l := by
  induction l generalizing i with
  | nil => simp at hi
  | cons e₀ rest ih =>
    cases i with
    | zero =>
      simp only [List.getElem?_cons_zero, Option.some_inj] at hi
      subst hi
      simp [markUnavailable, availCount, List.countP_cons, hav]
    | succ i =>
      simp only [List.getElem?_cons_succ] at hi
      simp only [markUnavailable, availCount, List.countP_cons]
      have := ih i hi
      unfold availCount at this
      omega

lemma maxCoverLoop_length_le_limit (mc : MaxCover T Inter SetT Obj) :
    ∀ (n : Nat) (all : List (MaxCoverItem T)),
      (maxCoverLoop mc all n).length ≤ n := by
  intro n
  induction n with
  | zero => intro all; simp [maxCoverLoop]
  | succ n ih =>
    intro all
    rw [maxCoverLoop]
    cases h : findBest mc all with
    | none => simp
    | some p =>
      obtain ⟨i, best⟩ := p
      simpa using ih (updatePass mc best (markUnavailable all i))

lemma maxCoverLoop_length_le_avail (mc : MaxCover T Inter SetT Obj) :
    ∀ (n : Nat) (all : List (MaxCoverItem T)),
      (maxCoverLoop mc all n).length ≤ availCount all := by
  intro n
  induction n with
  | zero => intro all; simp [maxCoverLoop]
  | succ n ih =>
    intro all
    rw [maxCoverLoop]
    cases h : findBest mc all with
    | none => simp
    | some p =>
      obtain ⟨i, best⟩ := p
      obtain ⟨hi, _⟩ := findBest_spec mc all i best h
      have h1 := availCount_markUnavailable all i ⟨best, true⟩ hi rfl
      have h2 := availCount_updatePass mc best (markUnavailable all i)
      have h3 := ih (updatePass mc best (markUnavailable all i))
      simp only [List.length_cons]
      omega

/-! ## Properties of the emitted sequence -/

/-- The head of a non-empty loop output is the item selected in the
first round. -/
lemma maxCoverLoop_head (mc : MaxCover T Inter SetT Obj)
    (all : List (MaxCoverItem T)) (n : Nat) (b : T) (l' : List T)
    (h : maxCoverLoop mc all n = b :: l') :
    ∃ i, findBest mc all = some (i, b) := by
  cases n with
  | zero => simp [maxCoverLoop] at h
  | succ n =>
    rw [maxCoverLoop] at h
    cases hfb : findBest mc all with
    | none => rw [hfb] at h; simp at h
    | some p =>
      obtain ⟨i, best⟩ := p
      rw [hfb] at h
      have h' : best :: maxCoverLoop mc (updatePass mc best (markUnavailable all i)) n =
          b :: l' := h
      have hbb : best = b := ((List.cons.injEq _ _ _ _).mp h').1
      exact ⟨i, by rw [hbb]⟩

/-- Every item emitted by the loop had non-zero score at the moment of
its selection, i.e. as it appears in the output. -/
lemma maxCoverLoop_score_ne_zero (mc : MaxCover T Inter SetT Obj) :
    ∀ (n : Nat) (all : List (MaxCoverItem T)) (b : T),
      b ∈ maxCoverLoop mc all n → mc.score b ≠ 0 := by
  intro n
  induction n with
  | zero => intro all b hb; simp [maxCoverLoop] at hb
  | succ n ih =>
    intro all b hb
    rw [maxCoverLoop] at hb
    cases hfb : findBest mc all with
    | none => rw [hfb] at hb; simp at hb
    | some p =>
      obtain ⟨i, best⟩ := p
      rw [hfb] at hb
      rcases List.mem_cons.mp hb with hb | hb
      · subst hb
        exact (findBest_spec mc all i b hfb).2
      · exact ih _ b hb

/-- When the update never increases scores, the item selected in the
round after `best` was selected scores no more than `best`. -/
lemma findBest_after_round (mc : MaxCover T Inter SetT Obj)
    (hmono : ∀ t x s, mc.score (mc.update_covering_set t x s) ≤ mc.score t)
    (all : List (MaxCoverItem T)) (i : Nat) (best : T) (j : Nat) (b' : T)
    (h1 : findBest mc all = some (i, best))
    (h2 : findBest mc (updatePass mc best (markUnavailable all i)) = some (j, b')) :
    mc.score b' ≤ mc.score best := by
  obtain ⟨hj, hb'⟩ := findBest_spec mc _ j b' h2
  by_cases hji : j = i
  · subst hji
    obtain ⟨hi, _⟩ := findBest_spec mc all j best h1
    rw [roundState_getElem_eq mc best all j ⟨best, true⟩ hi] at hj
    simp at hj
  · rw [roundState_getElem_ne mc best all i j hji] at hj
    cases he : all[j]? with
    | none => rw [he] at hj; simp at hj
    | some e =>
      rw [he] at hj
      simp only [Option.map_some', Option.some_inj] at hj
      by_cases helig : e.available = true ∧ mc.score e.item ≠ 0
      · rw [if_pos helig] at hj
        have hb'eq : mc.update_covering_set e.item (mc.intermediate best)
            (mc.covering_set best) = b' := congrArg MaxCoverItem.item hj
        rw [← hb'eq]
        exact le_trans (hmono _ _ _)
          (findBest_max mc all i best h1 j e he helig.1 helig.2)
      · rw [if_neg helig] at hj
        have hav : e.available = true := congrArg MaxCoverItem.available hj
        have hit : e.item = b' := congrArg MaxCoverItem.item hj
        have hz : mc.score e.item = 0 := by
          by_contra hne
          exact helig ⟨hav, hne⟩
        rw [hit] at hz
        exact absurd hz hb'

/-- Under a non-increasing update, the loop emits items in
non-increasing score order. -/
lemma maxCoverLoop_chain (mc : MaxCover T Inter SetT Obj)
    (hmono : ∀ t x s, mc.score (mc.update_covering_set t x s) ≤ mc.score t) :
    ∀ (n : Nat) (all : List (MaxCoverItem T)),
      List.Chain' (fun a b => mc.score b ≤ mc.score a) (maxCoverLoop mc all n) := by
  intro n
  induction n with
  | zero => intro all; simp [maxCoverLoop]
  | succ n ih =>
    intro all
    rw [maxCoverLoop]
    cases hfb : findBest mc all with
    | none => exact List.chain'_nil
    | some p =>
      obtain ⟨i, best⟩ := p
      show List.Chain' _
        (best :: maxCoverLoop mc (updatePass mc best (markUnavailable all i)) n)
      refine List.chain'_cons'.mpr ⟨?_, ih _⟩
      intro y hy
      cases hl : maxCoverLoop mc (updatePass mc best (markUnavailable all i)) n with
      | nil => rw [hl] at hy; simp at hy
      | cons b' l' =>
        rw [hl] at hy
        simp only [List.head?_cons, Option.mem_def, Option.some_inj] at hy
        subst hy
        obtain ⟨j, hj⟩ := maxCoverLoop_head mc _ n b' l' hl
        exact findBest_after_round mc hmono all i best j b' hfb hj

/-! ## The initial working list -/

lemma initial_entries_length (mc : MaxCover T Inter SetT Obj) (items : List T) :
    ((items.map fun x => ({ item := x, available := true } : MaxCoverItem T)).filter
        fun e => mc.score e.item != 0).length =
      (items.filter fun x => mc.score x != 0).length := by
  have hfe : ((fun e : MaxCoverItem T => mc.score e.item != 0) ∘
      fun x => ({ item := x, available := true } : MaxCoverItem T)) =
      fun x => mc.score x != 0 := rfl
  rw [List.filter_map, List.length_map, hfe]

lemma initial_entries_avail (mc : MaxCover T Inter SetT Obj) (items : List T) :
    availCount ((items.map fun x => ({ item := x, available := true } : MaxCoverItem T)).filter
        fun e => mc.score e.item != 0) =
      ((items.map fun x => ({ item := x, available := true } : MaxCoverItem T)).filter
        fun e => mc.score e.item != 0).length := by
  unfold availCount
  rw [List.countP_eq_length]
  intro e he
  have := List.mem_of_mem_filter he
  obtain ⟨x, _, hx⟩ := List.mem_map.mp this
  rw [← hx]

/-! ## Disjointness under the set-difference instance -/

lemma maxCoverLoop_disjoint :
    ∀ (n : Nat) (all : List (MaxCoverItem (Finset ℕ))) (s : Finset ℕ),
      (∀ e ∈ all, e.available = true → Disjoint e.item s) →
      (∀ t ∈ maxCoverLoop setInstance all n, Disjoint t s) ∧
        List.Pairwise (fun a b => Disjoint a b) (maxCoverLoop setInstance all n) := by
  intro n
  induction n with
  | zero =>
    intro all s _
    exact ⟨fun t ht => absurd (show t ∈ ([] : List (Finset ℕ)) from ht)
      (List.not_mem_nil t), List.Pairwise.nil⟩
  | succ n ih =>
    intro all s hinv
    rw [maxCoverLoop]
    cases hfb : findBest setInstance all with
    | none =>
      exact ⟨fun t ht => absurd (show t ∈ ([] : List (Finset ℕ)) from ht)
        (List.not_mem_nil t), List.Pairwise.nil⟩
    | some p =>
      obtain ⟨i, best⟩ := p
      obtain ⟨hi, hscore⟩ := findBest_spec setInstance all i best hfb
      have hbest_mem : (⟨best, true⟩ : MaxCoverItem (Finset ℕ)) ∈ all := by
        obtain ⟨hlen, hget⟩ := List.getElem?_eq_some.mp hi
        rw [← hget]
        exact List.getElem_mem hlen
      have hbest_s : Disjoint best s := hinv _ hbest_mem rfl
      have hinv' : ∀ e' ∈ updatePass setInstance best (markUnavailable all i),
          e'.available = true → Disjoint e'.item (s ∪ best) := by
        intro e' he' hav'
        obtain ⟨k, hk, hke⟩ := List.mem_iff_getElem.mp he'
        have hk? : (updatePass setInstance best (markUnavailable all i))[k]? = some e' := by
          rw [List.getElem?_eq_getElem hk, hke]
        by_cases hki : k = i
        · subst hki
          rw [roundState_getElem_eq setInstance best all k ⟨best, true⟩ hi] at hk?
          have : e'.available = false :=
            congrArg MaxCoverItem.available (Option.some_inj.mp hk?).symm
          rw [hav'] at this
          cases this
        · rw [roundState_getElem_ne setInstance best all i k hki] at hk?
          cases he0 : all[k]? with
          | none => rw [he0] at hk?; cases hk?
          | some e =>
            rw [he0] at hk?
            simp only [Option.map_some', Option.some_inj] at hk?
            have he_mem : e ∈ all := by
              obtain ⟨hlen, hget⟩ := List.getElem?_eq_some.mp he0
              rw [← hget]
              exact List.getElem_mem hlen
            by_cases helig : e.available = true ∧ setInstance.score e.item ≠ 0
            · have hitem : e'.item = e.item \ best := by
                rw [← hk?, if_pos helig]
                rfl
              rw [hitem]
              refine Finset.disjoint_union_right.mpr ⟨?_, ?_⟩
              · exact Finset.disjoint_of_subset_left Finset.sdiff_subset
                  (hinv e he_mem helig.1)
              · exact Finset.sdiff_disjoint
            · have hee : e' = e := by rw [← hk?, if_neg helig]
              have hz : setInstance.score e.item = 0 := by
                by_contra hne
                exact helig ⟨by rw [← hee]; exact hav', hne⟩
              have hempty : e.item = ∅ := Finset.card_eq_zero.mp hz
              rw [hee, hempty]
              exact Finset.disjoint_empty_left _
      obtain ⟨h1, h2⟩ := ih (updatePass setInstance best (markUnavailable all i))
        (s ∪ best) hinv'
      constructor
      · intro t ht
        rcases List.mem_cons.mp ht with rfl | ht
        · exact hbest_s
        · exact Finset.disjoint_of_subset_right Finset.subset_union_left (h1 t ht)
      · refine List.pairwise_cons.mpr ⟨fun t ht => ?_, h2⟩
        exact (Finset.disjoint_of_subset_right Finset.subset_union_right (h1 t ht)).symm

/-! ## Properties of the merge -/

lemma mergeBy_nil_left (pred : T → T → Bool) (ys : List T) :
    mergeBy pred [] ys = ys := by
  rw [mergeBy]

lemma mergeBy_nil_right (pred : T → T → Bool) (x : T) (xs : List T) :
    mergeBy pred (x :: xs) [] = x :: xs := by
  rw [mergeBy]

lemma mergeBy_cons_cons (pred : T → T → Bool) (x : T) (xs : List T) (y : T) (ys : List T) :
    mergeBy pred (x :: xs) (y :: ys) =
      if pred x y then x :: mergeBy pred xs (y :: ys)
      else y :: mergeBy pred (x :: xs) ys := by
  rw [mergeBy]

lemma mergeBy_length (pred : T → T → Bool) :
    ∀ (xs ys : List T), (mergeBy pred xs ys).length = xs.length + ys.length := by
  intro xs
  induction xs with
  | nil => intro ys; rw [mergeBy_nil_left]; simp
  | cons x xs ihx =>
    intro ys
    induction ys with
    | nil => rw [mergeBy_nil_right]; simp
    | cons y ys ihy =>
      rw [mergeBy_cons_cons]
      by_cases hp : pred x y
      · rw [if_pos hp]
        have := ihx (y :: ys)
        simp only [List.length_cons] at this ⊢
        omega
      · rw [if_neg hp]
        simp only [List.length_cons] at ihy ⊢
        omega

lemma mergeBy_mem (pred : T → T → Bool) :
    ∀ (xs ys : List T) (z : T), z ∈ mergeBy pred xs ys → z ∈ xs ∨ z ∈ ys := by
  intro xs
  induction xs with
  | nil => intro ys z hz; rw [mergeBy_nil_left] at hz; exact Or.inr hz
  | cons x xs ihx =>
    intro ys
    induction ys with
    | nil => intro z hz; rw [mergeBy_nil_right] at hz; exact Or.inl hz
    | cons y ys ihy =>
      intro z hz
      rw [mergeBy_cons_cons] at hz
      by_cases hp : pred x y
      · rw [if_pos hp] at hz
        rcases List.mem_cons.mp hz with rfl | hz
        · exact Or.inl (List.mem_cons_self _ _)
        · rcases ihx (y :: ys) z hz with h | h
          · exact Or.inl (List.mem_cons_of_mem _ h)
          · exact Or.inr h
      · rw [if_neg hp] at hz
        rcases List.mem_cons.mp hz with rfl | hz
        · exact Or.inr (List.mem_cons_self _ _)
        · rcases ihy z hz with h | h
          · exact Or.inl h
          · exact Or.inr (List.mem_cons_of_mem _ h)

lemma mergeBy_head (pred : T → T → Bool) (xs ys : List T) (z : T)
    (h : (mergeBy pred xs ys).head? = some z) :
    xs.head? = some z ∨ ys.head? = some z := by
  cases xs with
  | nil => rw [mergeBy_nil_left] at h; exact Or.inr h
  | cons x xs =>
    cases ys with
    | nil => rw [mergeBy_nil_right] at h; exact Or.inl h
    | cons y ys =>
      rw [mergeBy_cons_cons] at h
      by_cases hp : pred x y
      · rw [if_pos hp] at h
        exact Or.inl h
      · rw [if_neg hp] at h
        exact Or.inr h

/-- Merging two sequences that are non-increasing under `f` with the
`f y ≤ f x` comparator yields a non-increasing sequence. -/
lemma mergeBy_chain (f : T → Nat) :
    ∀ (xs ys : List T),
      List.Chain' (fun a b => f b ≤ f a) xs →
      List.Chain' (fun a b => f b ≤ f a) ys →
      List.Chain' (fun a b => f b ≤ f a)
        (mergeBy (fun a b => decide (f b ≤ f a)) xs ys) := by
  intro xs
  induction xs with
  | nil => intro ys _ hys; rw [mergeBy_nil_left]; exact hys
  | cons x xs ihx =>
    intro ys hxs
    induction ys with
    | nil => intro _; rw [mergeBy_nil_right]; exact hxs
    | cons y ys ihy =>
      intro hys
      rw [mergeBy_cons_cons]
      by_cases hp : f y ≤ f x
      · rw [if_pos (by simpa using hp)]
        refine List.chain'_cons'.mpr ⟨?_, ihx (y :: ys) hxs.tail hys⟩
        intro z hz
        rcases mergeBy_head _ xs (y :: ys) z hz with h | h
        · exact (List.chain'_cons'.mp hxs).1 z h
        · simp only [List.head?_cons, Option.some_inj] at h
          subst h
          exact hp
      · rw [if_neg (by simpa using hp)]
        refine List.chain'_cons'.mpr ⟨?_, ihy hys.tail⟩
        intro z hz
        rcases mergeBy_head _ (x :: xs) ys z hz with h | h
        · simp only [List.head?_cons, Option.some_inj] at h
          subst h
          omega
        · exact (List.chain'_cons'.mp hys).1 z h

/-! ## Claim theorems -/

/-- C1, counterexample: two distinct sets tie on score 2.  Under the
claimed "first encountered among ties" policy the scan would select
`\x7b1, 2\x7d`, but `maximum_cover` returns `\x7b3, 4\x7d`: the scan keeps
the last encountered among ties, as Rust's `max_by_key` does. -/
theorem c1_first_tie_counterexample :
    setInstance.score {1, 2} = setInstance.score {3, 4} ∧
    ({1, 2} : Finset ℕ) ≠ {3, 4} ∧
    maximum_cover setInstance [{1, 2}, {3, 4}] 1 = [({3, 4} : Finset ℕ)] := by
  decide

/-- C1, amended: at every round the scan selects an available
non-zero-score entry of maximal score; among ties the LAST encountered
(in input order) is selected — every eligible entry strictly after the
selected index scores strictly less.  Selection remains deterministic
given fixed input order. -/
theorem c1_selection_last_among_ties (mc : MaxCover T Inter SetT Obj)
    (all : List (MaxCoverItem T)) (i : Nat) (best : T)
    (h : findBest mc all = some (i, best)) :
    (all[i]? = some ⟨best, true⟩ ∧ mc.score best ≠ 0) ∧
    (∀ (k : Nat) (e : MaxCoverItem T), all[k]? = some e → e.available = true →
      mc.score e.item ≠ 0 → mc.score e.item ≤ mc.score best) ∧
    (∀ (k : Nat) (e : MaxCoverItem T), all[k]? = some e → e.available = true →
      mc.score e.item ≠ 0 → i < k → mc.score e.item < mc.score best) :=
  ⟨findBest_spec mc all i best h, findBest_max mc all i best h,
    findBest_last mc all i best h⟩

/-- C1, witness for the amended theorem, on two tied entries where the
second (index 1) is selected. -/
theorem c1_selection_last_witness :
    (([⟨{1, 2}, true⟩, ⟨{3, 4}, true⟩] :
        List (MaxCoverItem (Finset ℕ)))[1]? = some ⟨{3, 4}, true⟩ ∧
      setInstance.score {3, 4} ≠ 0) ∧
    (∀ (k : Nat) (e : MaxCoverItem (Finset ℕ)),
      ([⟨{1, 2}, true⟩, ⟨{3, 4}, true⟩] :
        List (MaxCoverItem (Finset ℕ)))[k]? = some e → e.available = true →
      setInstance.score e.item ≠ 0 →
      setInstance.score e.item ≤ setInstance.score {3, 4}) ∧
    (∀ (k : Nat) (e : MaxCoverItem (Finset ℕ)),
      ([⟨{1, 2}, true⟩, ⟨{3, 4}, true⟩] :
        List (MaxCoverItem (Finset ℕ)))[k]? = some e → e.available = true →
      setInstance.score e.item ≠ 0 → 1 < k →
      setInstance.score e.item < setInstance.score {3, 4}) :=
  c1_selection_last_among_ties setInstance [⟨{1, 2}, true⟩, ⟨{3, 4}, true⟩] 1 {3, 4}
    (by decide)

/-- C2: on the example system, limit 1 yields exactly `[\x7b1,2,4,5\x7d]`,
and every limit from 2 to 9 yields exactly `[\x7b1,2,4,5\x7d, \x7b3\x7d]`. -/
theorem c2_example_system (k : Nat) (h2 : 2 ≤ k) (h9 : k ≤ 9) :
    maximum_cover setInstance example_system 1 = [{1, 2, 4, 5}] ∧
    maximum_cover setInstance example_system k = [{1, 2, 4, 5}, {3}] := by
  refine ⟨by decide, ?_⟩
  interval_cases k <;> decide

/-- C2, witness at limit 5. -/
theorem c2_example_system_witness :
    maximum_cover setInstance example_system 1 = [{1, 2, 4, 5}] ∧
    maximum_cover setInstance example_system 5 = [{1, 2, 4, 5}, {3}] :=
  c2_example_system 5 (by norm_num) (by norm_num)

/-- C3: on the constructed 6-set instance the greedy 3-round selection
has total coverage exactly 11, although the first three input sets are
pairwise disjoint with total coverage 15 — an optimal 3-set selection. -/
theorem c3_suboptimal :
    quality (maximum_cover setInstance suboptimalSets 3) = 11 ∧
    quality (suboptimalSets.take 3) = 15 ∧
    List.Pairwise (fun a b => a ∩ b = ∅) (suboptimalSets.take 3) :=
  ⟨by decide, by decide, by decide⟩

/-- C4: the output length is at most `limit` and at most the number of
non-zero-score input items; limit 0 always yields the empty sequence
(and `maximum_cover` is a total function — there is no failure mode). -/
theorem c4_length_bounds (mc : MaxCover T Inter SetT Obj) (items : List T)
    (limit : Nat) :
    (maximum_cover mc items limit).length ≤ limit ∧
    (maximum_cover mc items limit).length ≤
      (items.filter fun x => mc.score x != 0).length ∧
    maximum_cover mc items 0 = [] := by
  refine ⟨maxCoverLoop_length_le_limit mc limit _, ?_, rfl⟩
  have h1 := maxCoverLoop_length_le_avail mc limit
    ((items.map fun x => ({ item := x, available := true } : MaxCoverItem T)).filter
      fun e => mc.score e.item != 0)
  rw [initial_entries_avail, initial_entries_length] at h1
  exact h1

/-- C5: an item of score zero never appears in the output — every
emitted item has non-zero score as emitted, and zero-score inputs are
discarded at materialization. -/
theorem c5_zero_score_never_selected (mc : MaxCover T Inter SetT Obj)
    (items : List T) (limit : Nat) (x : T) (h : mc.score x = 0) :
    x ∉ maximum_cover mc items limit := by
  intro hmem
  exact maxCoverLoop_score_ne_zero mc limit _ x hmem h

/-- C5, witness: the empty set (score 0) is not in the output. -/
theorem c5_zero_score_witness :
    (∅ : Finset ℕ) ∉ maximum_cover setInstance [∅, {1, 2}] 3 :=
  c5_zero_score_never_selected setInstance [∅, {1, 2}] 3 ∅ (by decide)

/-- C6: when the covering-set update never increases an item's score,
the output of `maximum_cover` is in non-increasing order of the scores
as selected (which are the scores of the emitted clones). -/
theorem c6_scores_non_increasing (mc : MaxCover T Inter SetT Obj)
    (items : List T) (limit : Nat)
    (hmono : ∀ t x s, mc.score (mc.update_covering_set t x s) ≤ mc.score t) :
    List.Chain' (fun a b => mc.score b ≤ mc.score a)
      (maximum_cover mc items limit) :=
  maxCoverLoop_chain mc hmono limit _

/-- C6, witness on the suboptimal instance (set difference never
increases cardinality). -/
theorem c6_scores_witness :
    List.Chain' (fun a b => setInstance.score b ≤ setInstance.score a)
      (maximum_cover setInstance suboptimalSets 3) :=
  c6_scores_non_increasing setInstance suboptimalSets 3
    (fun t x s => Finset.card_le_card Finset.sdiff_subset)

/-- C7: merging two non-increasing solutions yields
`min limit (len a + len b)` objects, the merged item sequence (before
conversion) is non-increasing in score, and every output object is the
conversion of the intermediate of an element of `a` or of `b`. -/
theorem c7_merge_properties (mc : MaxCover T Inter SetT Obj) (a b : List T)
    (limit : Nat)
    (ha : List.Chain' (fun x y => mc.score y ≤ mc.score x) a)
    (hb : List.Chain' (fun x y => mc.score y ≤ mc.score x) b) :
    (merge_solutions mc a b limit).length = min limit (a.length + b.length) ∧
    List.Chain' (fun x y => mc.score y ≤ mc.score x)
      ((mergeBy (fun x y => decide (mc.score y ≤ mc.score x)) a b).take limit) ∧
    ∀ o ∈ merge_solutions mc a b limit,
      ∃ x, (x ∈ a ∨ x ∈ b) ∧ o = mc.convert_to_object (mc.intermediate x) := by
  refine ⟨?_, ?_, ?_⟩
  · unfold merge_solutions
    rw [List.length_map, List.length_take, mergeBy_length]
  · exact (mergeBy_chain mc.score a b ha hb).take limit
  · intro o ho
    unfold merge_solutions at ho
    obtain ⟨x, hx, hox⟩ := List.mem_map.mp ho
    have hx' := List.mem_of_mem_take hx
    exact ⟨x, mergeBy_mem _ a b x hx', hox.symm⟩

/-- C7, witness on two concrete descending solutions. -/
theorem c7_merge_witness :
    (merge_solutions setInstance [{1, 2}, {3}] [{4, 5, 6}, {7}] 3).length =
      min 3 (([({1, 2} : Finset ℕ), {3}]).length + ([({4, 5, 6} : Finset ℕ), {7}]).length) ∧
    List.Chain' (fun x y => setInstance.score y ≤ setInstance.score x)
      ((mergeBy (fun x y => decide (setInstance.score y ≤ setInstance.score x))
        [{1, 2}, {3}] [{4, 5, 6}, {7}]).take 3) ∧
    ∀ o ∈ merge_solutions setInstance [{1, 2}, {3}] [{4, 5, 6}, {7}] 3,
      ∃ x, (x ∈ ([({1, 2} : Finset ℕ), {3}]) ∨ x ∈ ([({4, 5, 6} : Finset ℕ), {7}])) ∧
        o = setInstance.convert_to_object (setInstance.intermediate x) :=
  c7_merge_properties setInstance [{1, 2}, {3}] [{4, 5, 6}, {7}] 3
    (List.chain'_cons.mpr ⟨by decide, List.chain'_singleton _⟩)
    (List.chain'_cons.mpr ⟨by decide, List.chain'_singleton _⟩)

/-- C8: the merge takes the head of the first sequence whenever its
score is greater than or equal to the head of the second sequence — a
score tie emits the first-sequence element first — and takes the head
of the second sequence only when its score is strictly greater. -/
theorem c8_merge_tie_break (mc : MaxCover T Inter SetT Obj) (x y : T)
    (xs ys : List T) :
    (mc.score y ≤ mc.score x →
      mergeBy (fun a b => decide (mc.score b ≤ mc.score a)) (x :: xs) (y :: ys) =
        x :: mergeBy (fun a b => decide (mc.score b ≤ mc.score a)) xs (y :: ys)) ∧
    (mc.score x < mc.score y →
      mergeBy (fun a b => decide (mc.score b ≤ mc.score a)) (x :: xs) (y :: ys) =
        y :: mergeBy (fun a b => decide (mc.score b ≤ mc.score a)) (x :: xs) ys) := by
  constructor
  · intro h
    rw [mergeBy_cons_cons, if_pos (decide_eq_true h)]
  · intro h
    rw [mergeBy_cons_cons, if_neg ?_]
    simp only [decide_eq_true_eq]
    omega

/-- C8, witness: on a score tie the first-sequence element is emitted
first. -/
theorem c8_merge_tie_witness :
    mergeBy (fun a b => decide (setInstance.score b ≤ setInstance.score a))
        [({1, 2} : Finset ℕ)] [({3, 4} : Finset ℕ)] =
      {1, 2} :: mergeBy (fun a b => decide (setInstance.score b ≤ setInstance.score a))
        [] [({3, 4} : Finset ℕ)] :=
  (c8_merge_tie_break setInstance {1, 2} {3, 4} [] []).1 (by decide)

/-- C9: under the set-difference instance the covering sets in the
output of `maximum_cover` are pairwise disjoint. -/
theorem c9_pairwise_disjoint (items : List (Finset ℕ)) (limit : Nat) :
    List.Pairwise (fun a b => Disjoint a b)
      (maximum_cover setInstance items limit) :=
  (maxCoverLoop_disjoint limit _ ∅ fun e _ _ => Finset.disjoint_empty_right _).2

/-- C10: the clone pushed into the result is the selected item's
pre-update value; after the round the selected entry still holds that
exact value with its flag cleared (the update pass skips it), and
entries already unavailable are never touched again. -/
theorem c10_selected_item_frozen (mc : MaxCover T Inter SetT Obj)
    (all : List (MaxCoverItem T)) (n i : Nat) (best : T)
    (h : findBest mc all = some (i, best)) :
    maxCoverLoop mc all (n + 1) =
      best :: maxCoverLoop mc (updatePass mc best (markUnavailable all i)) n ∧
    (updatePass mc best (markUnavailable all i))[i]? = some ⟨best, false⟩ ∧
    ∀ (j : Nat) (e : MaxCoverItem T), all[j]? = some e → e.available = false →
      (updatePass mc best (markUnavailable all i))[j]? = some e := by
  obtain ⟨hi, hsc⟩ := findBest_spec mc all i best h
  refine ⟨?_, ?_, ?_⟩
  · rw [maxCoverLoop, h]
  · exact roundState_getElem_eq mc best all i ⟨best, true⟩ hi
  · intro j e hj hav
    have hji : j ≠ i := by
      intro hji
      subst hji
      rw [hj] at hi
      have he : e = ⟨best, true⟩ := Option.some_inj.mp hi
      rw [he] at hav
      cases hav
    rw [roundState_getElem_ne mc best all i j hji, hj]
    simp only [Option.map_some']
    rw [if_neg]
    rintro ⟨h1, _⟩
    rw [hav] at h1
    cases h1

/-- C10, witness on a one-entry state. -/
theorem c10_frozen_witness :
    maxCoverLoop setInstance [⟨{1}, true⟩] (0 + 1) =
      {1} :: maxCoverLoop setInstance
        (updatePass setInstance {1} (markUnavailable [⟨{1}, true⟩] 0)) 0 ∧
    (updatePass setInstance {1} (markUnavailable [⟨{1}, true⟩] 0))[0]? =
      some ⟨{1}, false⟩ ∧
    ∀ (j : Nat) (e : MaxCoverItem (Finset ℕ)),
      ([⟨{1}, true⟩] : List (MaxCoverItem (Finset ℕ)))[j]? = some e →
      e.available = false →
      (updatePass setInstance {1} (markUnavailable [⟨{1}, true⟩] 0))[j]? = some e :=
  c10_selected_item_frozen setInstance [⟨{1}, true⟩] 0 0 {1} (by decide)

end MaxCoverSpec
